import Mathlib

/-!
Verification of the authentication and session subsystem of the
file-upload-manager service (Go sources: utils.go, services.go, entities.go,
schema definitions).

Modelling conventions:
* Go strings are `List Char`; Go `nil`-able values are `Option`s.
* A Go function that can panic (nil-pointer dereference, nil-interface method
  call) is modelled as returning `Option`, where `none` is the panic.
* The DynamoDB backend is a passed-in response value (the shallow embedding of
  the `dynamodbiface.DynamoDBAPI` call results).
* The JWT compact serialization (base64url JSON segments) is modelled by an
  executable injective segment encoding over the alphabet of lowercase hex
  digits plus the markers `g`, `q`, `r`, with `.` separating the three
  segments, exactly mirroring the structure header ++ "." ++ claims ++ "." ++
  signature.  The HMAC-SHA256 digest is modelled as an injective keyed tag.
  Like base64url output, none of the produced characters is a space.
-/

/-- The sixteen lowercase hexadecimal digit characters. -/
def hexCharList : List Char := String.toList "0123456789abcdef"

/-- Hexadecimal digit character of `d % 16`. -/
def hexChar (d : Nat) : Char :=
  if d % 16 < 10 then Char.ofNat (48 + d % 16) else Char.ofNat (87 + d % 16)

/-- Numeric value of a hexadecimal digit character. -/
def hexVal (c : Char) : Nat :=
  if c.toNat ≤ 57 then c.toNat - 48 else c.toNat - 87

theorem hexChar_mem (d : Nat) : hexChar d ∈ hexCharList := by
  have h : d % 16 < 16 := Nat.mod_lt _ (by norm_num)
  unfold hexChar
  generalize d % 16 = m at h ⊢
  interval_cases m <;> decide

theorem hexVal_hexChar (d : Nat) : hexVal (hexChar d) = d % 16 := by
  have h : d % 16 < 16 := Nat.mod_lt _ (by norm_num)
  unfold hexChar hexVal
  generalize d % 16 = m at h ⊢
  interval_cases m <;> decide

/-- Little-endian hexadecimal rendering of a natural number. -/
def encNat (n : Nat) : List Char := (Nat.digits 16 n).map hexChar

/-- Parse a little-endian hexadecimal rendering back to a natural number. -/
def decNat (l : List Char) : Nat := Nat.ofDigits 16 (l.map hexVal)

theorem encNat_mem {c : Char} {n : Nat} (h : c ∈ encNat n) : c ∈ hexCharList := by
  rcases List.mem_map.mp h with ⟨d, _, rfl⟩
  exact hexChar_mem d

theorem decNat_encNat (n : Nat) : decNat (encNat n) = n := by
  unfold decNat encNat
  rw [List.map_map]
  have : (Nat.digits 16 n).map (hexVal ∘ hexChar) = (Nat.digits 16 n).map id := by
    apply List.map_congr_left
    intro d hd
    have hlt : d < 16 := Nat.digits_lt_base (by norm_num) hd
    simp [Function.comp, hexVal_hexChar, Nat.mod_eq_of_lt hlt]
  rw [this, List.map_id, Nat.ofDigits_digits]

/-- Injective rendering of a string: every character as its codepoint in hex,
terminated by the marker `g` (playing the role of base64url padding /
JSON punctuation in the real wire format). -/
def encStr (s : List Char) : List Char :=
  s.flatMap (fun c => encNat c.toNat ++ ['g'])

theorem encStr_mem {c : Char} {s : List Char} (h : c ∈ encStr s) :
    c ∈ hexCharList ∨ c = 'g' := by
  rcases List.mem_flatMap.mp h with ⟨x, _, hx⟩
  rcases List.mem_append.mp hx with h1 | h2
  · exact Or.inl (encNat_mem h1)
  · simp at h2
    exact Or.inr h2

theorem encStr_nil : encStr [] = [] := rfl

theorem encStr_cons (c : Char) (s : List Char) :
    encStr (c :: s) = encNat c.toNat ++ 'g' :: encStr s := by
  simp [encStr]

theorem takeWhile_append_stop {p : Char → Bool} {a : List Char} {y : Char}
    (ha : ∀ x ∈ a, p x = true) (hy : p y = false) (b : List Char) :
    (a ++ y :: b).takeWhile p = a := by
  induction a with
  | nil => simp [List.takeWhile_cons, hy]
  | cons x a ih =>
      have hx : p x = true := ha x (by simp)
      simp only [List.cons_append, List.takeWhile_cons, hx]
      simp [ih (fun z hz => ha z (by simp [hz]))]

theorem dropWhile_append_stop {p : Char → Bool} {a : List Char} {y : Char}
    (ha : ∀ x ∈ a, p x = true) (hy : p y = false) (b : List Char) :
    (a ++ y :: b).dropWhile p = y :: b := by
  induction a with
  | nil => simp [List.dropWhile_cons, hy]
  | cons x a ih =>
      have hx : p x = true := ha x (by simp)
      simp only [List.cons_append, List.dropWhile_cons, hx]
      simp [ih (fun z hz => ha z (by simp [hz]))]

/-- Fuel-indexed parser inverting `encStr`: repeatedly read a hex run up to the
next `g` marker and convert it back to a character. -/
def decStrF : Nat → List Char → Option (List Char)
  | _, [] => some []
  | 0, _ :: _ => none
  | fuel + 1, c :: cs =>
    let na := (c :: cs).takeWhile (fun x => x != 'g')
    match (c :: cs).dropWhile (fun x => x != 'g') with
    | [] => none
    | _ :: rest =>
      match decStrF fuel rest with
      | none => none
      | some s => some (Char.ofNat (decNat na) :: s)

/-- Parser inverting `encStr`. -/
def decStr (l : List Char) : Option (List Char) := decStrF l.length l

theorem decStrF_step (fuel : Nat) {na : List Char} (rest : List Char)
    (hna : ∀ x ∈ na, x ∈ hexCharList) :
    decStrF (fuel + 1) (na ++ 'g' :: rest) =
      match decStrF fuel rest with
      | none => none
      | some s => some (Char.ofNat (decNat na) :: s) := by
  have hall : ∀ x ∈ na, (x != 'g') = true := by
    intro x hx
    have h := hna x hx
    fin_cases h <;> decide
  have hg : (('g' : Char) != 'g') = false := by decide
  have htake : (na ++ 'g' :: rest).takeWhile (fun x => x != 'g') = na :=
    takeWhile_append_stop hall hg rest
  have hdrop : (na ++ 'g' :: rest).dropWhile (fun x => x != 'g') = 'g' :: rest :=
    dropWhile_append_stop hall hg rest
  cases hl : na ++ 'g' :: rest with
  | nil => simp at hl
  | cons c cs =>
      rw [hl] at htake hdrop
      simp only [decStrF, htake, hdrop]

theorem decStrF_encStr (s : List Char) :
    ∀ fuel, (encStr s).length ≤ fuel → decStrF fuel (encStr s) = some s := by
  induction s with
  | nil => intro fuel _; simp [encStr, decStrF]
  | cons c s ih =>
      intro fuel hfuel
      rw [encStr_cons] at hfuel ⊢
      have hlen : (encNat c.toNat).length + (1 + (encStr s).length) ≤ fuel := by
        simpa [Nat.add_comm, Nat.add_assoc, Nat.add_left_comm] using hfuel
      cases fuel with
      | zero => omega
      | succ fuel =>
          rw [decStrF_step fuel (encStr s) (fun x hx => encNat_mem hx)]
          rw [ih fuel (by omega)]
          rw [decNat_encNat, Char.ofNat_toNat]

theorem decStr_encStr (s : List Char) : decStr (encStr s) = some s :=
  decStrF_encStr s (encStr s).length (Nat.le_refl _)

/-- Claims maps carried by the tokens of this service.  The service only ever
builds and reads string-valued claims (`jwt.MapClaims` whose values are the
strings put there by `buildToken`); for such maps the
`mapstructure.Decode` into `map[string]string` always succeeds. -/
def Claims : Type := List (List Char × List Char)

instance : DecidableEq Claims := by unfold Claims; infer_instance

/-- Wire rendering of a claims map (the base64url JSON segment of the real
token): each pair is the two rendered strings closed by the markers `q` and
`r`. -/
def encClaims (cs : Claims) : List Char :=
  cs.flatMap (fun kv => encStr kv.1 ++ 'q' :: (encStr kv.2 ++ 'r' :: []))

theorem encClaims_mem {c : Char} {cs : Claims} (h : c ∈ encClaims cs) :
    c ∈ hexCharList ∨ c = 'g' ∨ c = 'q' ∨ c = 'r' := by
  rcases List.mem_flatMap.mp h with ⟨kv, _, hkv⟩
  rcases List.mem_append.mp hkv with h1 | h2
  · rcases encStr_mem h1 with h | h
    · exact Or.inl h
    · exact Or.inr (Or.inl h)
  · rcases List.mem_cons.mp h2 with rfl | h3
    · exact Or.inr (Or.inr (Or.inl rfl))
    · rcases List.mem_append.mp h3 with h4 | h5
      · rcases encStr_mem h4 with h | h
        · exact Or.inl h
        · exact Or.inr (Or.inl h)
      · rcases List.mem_cons.mp h5 with rfl | h6
        · exact Or.inr (Or.inr (Or.inr rfl))
        · simp at h6

/-- Fuel-indexed parser inverting `encClaims`. -/
def decClaimsF : Nat → List Char → Option Claims
  | _, [] => some []
  | 0, _ :: _ => none
  | fuel + 1, c :: cs =>
    let ka := (c :: cs).takeWhile (fun x => x != 'q')
    match (c :: cs).dropWhile (fun x => x != 'q') with
    | [] => none
    | _ :: r1 =>
      let va := r1.takeWhile (fun x => x != 'r')
      match r1.dropWhile (fun x => x != 'r') with
      | [] => none
      | _ :: r2 =>
        match decStr ka, decStr va, decClaimsF fuel r2 with
        | some k, some v, some rest => some ((k, v) :: rest)
        | _, _, _ => none

/-- Parser inverting `encClaims`. -/
def decClaims (l : List Char) : Option Claims := decClaimsF l.length l

theorem mem_encStr_ne_q {x : Char} {s : List Char} (h : x ∈ encStr s) :
    (x != 'q') = true := by
  rcases encStr_mem h with h1 | rfl
  · fin_cases h1 <;> decide
  · decide

theorem mem_encStr_ne_r {x : Char} {s : List Char} (h : x ∈ encStr s) :
    (x != 'r') = true := by
  rcases encStr_mem h with h1 | rfl
  · fin_cases h1 <;> decide
  · decide

theorem decClaimsF_step (fuel : Nat) (k v rest : List Char) :
    decClaimsF (fuel + 1) (encStr k ++ 'q' :: (encStr v ++ 'r' :: rest)) =
      match decClaimsF fuel rest with
      | none => none
      | some cs => some ((k, v) :: cs) := by
  have hq : (('q' : Char) != 'q') = false := by decide
  have hr : (('r' : Char) != 'r') = false := by decide
  have htake1 :
      (encStr k ++ 'q' :: (encStr v ++ 'r' :: rest)).takeWhile (fun x => x != 'q')
        = encStr k :=
    takeWhile_append_stop (fun x hx => mem_encStr_ne_q hx) hq _
  have hdrop1 :
      (encStr k ++ 'q' :: (encStr v ++ 'r' :: rest)).dropWhile (fun x => x != 'q')
        = 'q' :: (encStr v ++ 'r' :: rest) :=
    dropWhile_append_stop (fun x hx => mem_encStr_ne_q hx) hq _
  have htake2 :
      (encStr v ++ 'r' :: rest).takeWhile (fun x => x != 'r') = encStr v :=
    takeWhile_append_stop (fun x hx => mem_encStr_ne_r hx) hr _
  have hdrop2 :
      (encStr v ++ 'r' :: rest).dropWhile (fun x => x != 'r') = 'r' :: rest :=
    dropWhile_append_stop (fun x hx => mem_encStr_ne_r hx) hr _
  cases hl : encStr k ++ 'q' :: (encStr v ++ 'r' :: rest) with
  | nil => simp at hl
  | cons c cs =>
      rw [hl] at htake1 hdrop1
      simp only [decClaimsF, htake1, hdrop1, htake2, hdrop2,
        decStr_encStr]
      cases decClaimsF fuel rest <;> rfl

theorem encClaims_nil : encClaims [] = [] := rfl

theorem encClaims_cons (k v : List Char) (cs : Claims) :
    encClaims ((k, v) :: cs) =
      encStr k ++ 'q' :: (encStr v ++ 'r' :: encClaims cs) := by
  simp [encClaims]

theorem decClaimsF_encClaims (cs : Claims) :
    ∀ fuel, (encClaims cs).length ≤ fuel → decClaimsF fuel (encClaims cs) = some cs := by
  induction cs with
  | nil => intro fuel _; simp [encClaims, decClaimsF]
  | cons kv cs ih =>
      intro fuel hfuel
      obtain ⟨k, v⟩ := kv
      rw [encClaims_cons] at hfuel ⊢
      have hlen : (encStr k).length + (1 + ((encStr v).length + (1 + (encClaims cs).length))) ≤ fuel := by
        simpa [Nat.add_comm, Nat.add_assoc, Nat.add_left_comm] using hfuel
      cases fuel with
      | zero => omega
      | succ fuel =>
          rw [decClaimsF_step fuel k v (encClaims cs)]
          rw [ih fuel (by omega)]

theorem decClaims_encClaims (cs : Claims) : decClaims (encClaims cs) = some cs :=
  decClaimsF_encClaims cs (encClaims cs).length (Nat.le_refl _)

/-- Go `error` values produced by the modelled functions. -/
inductive GoErr
  | noAuthToken
  | notBearerToken
  | keyfuncRejected
  | malformedClaims
  | invalidSignature
  | badSegments
  | unmarshalFailure
  | entropyFailure
  | backendFailure
  | marshalFailure
deriving DecidableEq

/-- The identity claim key set and read by the service: the string `email`. -/
def emailKey : List Char := ['e', 'm', 'a', 'i', 'l']

/-- Rendered JOSE header segment for `alg: HS256, typ: JWT`. -/
def headerHS256 : List Char := encStr ['H', 'S', '2', '5', '6']

/-- The HMAC-SHA256 digest over the signing string, modelled as an injective
keyed tag rendered over the token alphabet. -/
def hmacSign (key msg : List Char) : List Char :=
  encStr key ++ 'q' :: encStr msg

theorem hmacSign_mem {c : Char} {key msg : List Char} (h : c ∈ hmacSign key msg) :
    c ∈ hexCharList ∨ c = 'g' ∨ c = 'q' := by
  rcases List.mem_append.mp h with h1 | h2
  · rcases encStr_mem h1 with h | h
    · exact Or.inl h
    · exact Or.inr (Or.inl h)
  · rcases List.mem_cons.mp h2 with rfl | h3
    · exact Or.inr (Or.inr rfl)
    · rcases encStr_mem h3 with h | h
      · exact Or.inl h
      · exact Or.inr (Or.inl h)

/-- Token signing string: header segment, dot, claims segment
(`token.SigningString()` in jwt-go). -/
def signingString (claims : Claims) : List Char :=
  headerHS256 ++ '.' :: encClaims claims

/-- SigningMethodHS256.Sign with a byte-slice key: computes the HMAC digest and
never fails (jwt-go returns `ErrInvalidKeyType` only for a non-byte-slice key,
and `buildToken` always passes `[]byte`).  The result is the full compact
token: signing string, dot, signature segment. -/
def signedStringHS256 (claims : Claims) (key : List Char) : Except GoErr (List Char) :=
  Except.ok (signingString claims ++ '.' :: hmacSign key (signingString claims))

/-- buildToken (utils.go 89-101): build an HS256 token whose claims map is
exactly `email: <email>`, sign it with the byte-slice secret, and return it
with the expiry instant `now + tokenExpiryMin` minutes in Unix nanoseconds. -/
def buildToken (email jwtSecret : List Char) (tokenExpiryMin nowNano : Int) :
    Except GoErr (List Char × Int) :=
  match signedStringHS256 [(emailKey, email)] jwtSecret with
  | Except.error e => Except.error e
  | Except.ok signedToken =>
      Except.ok (signedToken, nowNano + tokenExpiryMin * 60 * 1000000000)

/-- The token `buildToken` issues (it never fails, see `buildToken`). -/
def issuedToken (email jwtSecret : List Char) (tokenExpiryMin nowNano : Int) : List Char :=
  match buildToken email jwtSecret tokenExpiryMin nowNano with
  | Except.ok p => p.1
  | Except.error _ => []

/-- Split a character list at every dot, as `strings.Split(token, ".")`. -/
def splitDot : List Char → List (List Char)
  | [] => [[]]
  | c :: rest =>
    if c = '.' then [] :: splitDot rest
    else
      match splitDot rest with
      | [] => [[c]]
      | seg :: segs => (c :: seg) :: segs

theorem splitDot_ne_nil (l : List Char) : splitDot l ≠ [] := by
  cases l with
  | nil => simp [splitDot]
  | cons c rest =>
      simp only [splitDot]
      split
      · simp
      · split
        · simp
        · simp

theorem splitDot_no_dot {a : List Char} (h : ∀ x ∈ a, x ≠ '.') :
    splitDot a = [a] := by
  induction a with
  | nil => rfl
  | cons c rest ih =>
      have hc : c ≠ '.' := h c (by simp)
      have hrest := ih (fun x hx => h x (by simp [hx]))
      simp [splitDot, hc, hrest]

theorem splitDot_append {a : List Char} (h : ∀ x ∈ a, x ≠ '.') (b : List Char) :
    splitDot (a ++ '.' :: b) = a :: splitDot b := by
  induction a with
  | nil => simp [splitDot]
  | cons c rest ih =>
      have hc : c ≠ '.' := h c (by simp)
      have hrest := ih (fun x hx => h x (by simp [hx]))
      simp [splitDot, hc, hrest]

/-- The literal scheme constant `Bearer ` (with the trailing space) of utils.go. -/
def bearerTokenKey : List Char := ['B', 'e', 'a', 'r', 'e', 'r', ' ']

/-- strings.Replace(header, bearerTokenKey, empty, -1): remove every
(non-overlapping, left-to-right) occurrence of `Bearer ` from the header. -/
def replaceBearerAll : List Char → List Char
  | [] => []
  | c :: rest =>
    if bearerTokenKey.isPrefixOf (c :: rest) then
      replaceBearerAll (rest.drop 6)
    else
      c :: replaceBearerAll rest
termination_by l => l.length
decreasing_by
  · simp only [List.length_drop, List.length_cons]
    omega
  · simp only [List.length_cons]
    omega

theorem replaceBearerAll_cons (c : Char) (rest : List Char) :
    replaceBearerAll (c :: rest) =
      if bearerTokenKey.isPrefixOf (c :: rest) then
        replaceBearerAll (rest.drop 6)
      else
        c :: replaceBearerAll rest := by
  simp only [replaceBearerAll]

theorem isPrefixOf_append (l t : List Char) : l.isPrefixOf (l ++ t) = true := by
  induction l with
  | nil => simp [List.isPrefixOf]
  | cons c l ih => simp [List.isPrefixOf, ih]

theorem replaceBearerAll_of_no_space {t : List Char} (h : ∀ c ∈ t, c ≠ ' ') :
    replaceBearerAll t = t := by
  induction t with
  | nil => simp only [replaceBearerAll]
  | cons c rest ih =>
      rw [replaceBearerAll_cons]
      have hpre : ¬ (bearerTokenKey.isPrefixOf (c :: rest) = true) := by
        intro hp
        have hp2 := List.isPrefixOf_iff_prefix.mp hp
        have hsub : bearerTokenKey ⊆ c :: rest := hp2.subset
        exact h ' ' (hsub (by decide)) rfl
      simp only [hpre, if_false, Bool.false_eq_true, if_neg]
      rw [ih (fun x hx => h x (by simp [hx]))]

theorem replaceBearerAll_bearer (t : List Char) (h : ∀ c ∈ t, c ≠ ' ') :
    replaceBearerAll (bearerTokenKey ++ t) = t := by
  have hshape : bearerTokenKey ++ t = 'B' :: (['e', 'a', 'r', 'e', 'r', ' '] ++ t) := rfl
  rw [hshape, replaceBearerAll_cons]
  have hpre : bearerTokenKey.isPrefixOf ('B' :: (['e', 'a', 'r', 'e', 'r', ' '] ++ t)) = true :=
    isPrefixOf_append bearerTokenKey t
  rw [if_pos hpre]
  have hdrop : (['e', 'a', 'r', 'e', 'r', ' '] ++ t).drop 6 = t := rfl
  rw [hdrop, replaceBearerAll_of_no_space h]

/-- jwt.Parse with the keyfunc of validateToken (utils.go 126-131): split the
compact serialization into its three dot-separated segments, read the header
(the keyfunc rejects any non-HMAC method), decode the claims segment, and
verify the signature segment against the secret.  String-valued claims with no
numeric exp/iat/nbf always pass the MapClaims validity check, so a
successfully parsed token here is a valid one. -/
def jwtParse (tokenStr jwtSecret : List Char) : Except GoErr Claims :=
  match splitDot tokenStr with
  | [hSeg, cSeg, sSeg] =>
    if hSeg = headerHS256 then
      match decClaims cSeg with
      | none => Except.error GoErr.malformedClaims
      | some claims =>
        if sSeg = hmacSign jwtSecret (hSeg ++ '.' :: cSeg) then Except.ok claims
        else Except.error GoErr.invalidSignature
    else Except.error GoErr.keyfuncRejected
  | _ => Except.error GoErr.badSegments

/-- Go map read with the zero value: `decodedToken[key]` yields the empty
string when the key is absent. -/
def goMapGet : Claims → List Char → List Char
  | [], _ => []
  | kv :: rest, key => if kv.1 = key then kv.2 else goMapGet rest key

/-- validateToken (utils.go 108-156): check presence, the `Bearer ` scheme
prefix, strip every occurrence of the scheme from the header, parse and verify
the token, and return `decodedToken["email"]` with a nil error.  The decode of
string-valued claims into `map[string]string` cannot fail, so the
mapstructure error branch is unreachable and is not modelled. -/
def validateToken (authHeader : Option (List Char)) (jwtSecret : List Char) :
    Except GoErr (List Char) :=
  match authHeader with
  | none => Except.error GoErr.noAuthToken
  | some header =>
    if header = [] then Except.error GoErr.noAuthToken
    else if bearerTokenKey.isPrefixOf header = false then
      Except.error GoErr.notBearerToken
    else
      match jwtParse (replaceBearerAll header) jwtSecret with
      | Except.error e => Except.error e
      | Except.ok claims => Except.ok (goMapGet claims emailKey)

theorem hexgqr_ne_space {x : Char}
    (h : x ∈ hexCharList ∨ x = 'g' ∨ x = 'q' ∨ x = 'r') : x ≠ ' ' := by
  rcases h with h | rfl | rfl | rfl
  · fin_cases h <;> decide
  · decide
  · decide
  · decide

theorem hexgqr_ne_dot {x : Char}
    (h : x ∈ hexCharList ∨ x = 'g' ∨ x = 'q' ∨ x = 'r') : x ≠ '.' := by
  rcases h with h | rfl | rfl | rfl
  · fin_cases h <;> decide
  · decide
  · decide
  · decide

theorem encStr_mem4 {x : Char} {s : List Char} (h : x ∈ encStr s) :
    x ∈ hexCharList ∨ x = 'g' ∨ x = 'q' ∨ x = 'r' := by
  rcases encStr_mem h with h1 | h1
  · exact Or.inl h1
  · exact Or.inr (Or.inl h1)

theorem hmacSign_mem4 {x : Char} {key msg : List Char} (h : x ∈ hmacSign key msg) :
    x ∈ hexCharList ∨ x = 'g' ∨ x = 'q' ∨ x = 'r' := by
  rcases hmacSign_mem h with h1 | h1 | h1
  · exact Or.inl h1
  · exact Or.inr (Or.inl h1)
  · exact Or.inr (Or.inr (Or.inl h1))

theorem validateToken_signedToken (claims : Claims) (secret : List Char) :
    validateToken
      (some (bearerTokenKey ++
        (signingString claims ++ '.' :: hmacSign secret (signingString claims))))
      secret = Except.ok (goMapGet claims emailKey) := by
  have hheadND : ∀ x ∈ headerHS256, x ≠ '.' := fun x hx =>
    hexgqr_ne_dot (encStr_mem4 hx)
  have hclaimsND : ∀ x ∈ encClaims claims, x ≠ '.' := fun x hx =>
    hexgqr_ne_dot (encClaims_mem hx)
  have hsigND : ∀ x ∈ hmacSign secret (signingString claims), x ≠ '.' := fun x hx =>
    hexgqr_ne_dot (hmacSign_mem4 hx)
  have hnospace :
      ∀ x ∈ signingString claims ++ '.' :: hmacSign secret (signingString claims),
        x ≠ ' ' := by
    intro x hx
    rcases List.mem_append.mp hx with h1 | h2
    · unfold signingString at h1
      rcases List.mem_append.mp h1 with h3 | h4
      · exact hexgqr_ne_space (encStr_mem4 h3)
      · rcases List.mem_cons.mp h4 with rfl | h5
        · decide
        · exact hexgqr_ne_space (encClaims_mem h5)
    · rcases List.mem_cons.mp h2 with rfl | h5
      · decide
      · exact hexgqr_ne_space (hmacSign_mem4 h5)
  have hstrip := replaceBearerAll_bearer _ hnospace
  have hsplit :
      splitDot (signingString claims ++ '.' :: hmacSign secret (signingString claims))
        = [headerHS256, encClaims claims, hmacSign secret (signingString claims)] := by
    have h1 :
        signingString claims ++ '.' :: hmacSign secret (signingString claims)
          = headerHS256 ++
            '.' :: (encClaims claims ++ '.' :: hmacSign secret (signingString claims)) := by
      simp [signingString, List.append_assoc]
    rw [h1, splitDot_append hheadND, splitDot_append hclaimsND, splitDot_no_dot hsigND]
  have hne :
      bearerTokenKey ++
        (signingString claims ++ '.' :: hmacSign secret (signingString claims)) ≠ [] := by
    simp [bearerTokenKey]
  have hpre :=
    isPrefixOf_append bearerTokenKey
      (signingString claims ++ '.' :: hmacSign secret (signingString claims))
  simp only [validateToken, if_neg hne, hpre, Bool.true_eq_false, if_false, if_neg]
  rw [hstrip]
  simp only [jwtParse, hsplit, if_pos rfl, decClaims_encClaims]
  have hsig :
      hmacSign secret (signingString claims)
        = hmacSign secret (headerHS256 ++ '.' :: encClaims claims) := rfl
  rw [if_pos hsig]
  simp

/-- Bcrypt digest, modelled as an injective tagged copy: only the Boolean
outcome of `bcrypt.CompareHashAndPassword` matters to the control flow of the
service, and the model digest matches exactly the plaintext it was made
from. -/
def bcryptDigest (pwd : List Char) : List Char := 'b' :: 'c' :: pwd

/-- verifyPwd (utils.go 78-85): compare stored digest and candidate,
folding every comparison failure into `false`. -/
def verifyPwd (hashedPwd pwd : List Char) : Bool :=
  hashedPwd = bcryptDigest pwd

/-- Metadata block (entities revision with pointer-valued fields, as used by
services.go). -/
structure baseMeta where
  MetaCreatedAt : Option Int
  MetaUpdatedAt : Option Int
  MetaIsActive : Option Bool
deriving DecidableEq

/-- User record (entities.go). -/
structure user where
  Email : List Char
  Pwd : List Char
  Name : List Char
  Role : List Char
  Meta : baseMeta
deriving DecidableEq

/-- Authentication outcome (entities.go); zero values stand for the fields a
literal like `auth{Success: false, Message: ...}` leaves unset. -/
structure auth where
  Success : Bool
  Message : List Char
  Token : List Char
  ExpiresAt : Int
  User : Option user
deriving DecidableEq

/-- Result of `GetItemRequest(...).Send()` on the users table: the transport
error, and the returned item (`empty` is the zero-length attribute map of a
missing key; `garbled` is an item `dynamodbattribute.UnmarshalMap` rejects). -/
inductive dbUserItem
  | empty
  | found (u : user)
  | garbled
deriving DecidableEq

structure getUserResp where
  err : Option GoErr
  item : dbUserItem
deriving DecidableEq

/-- findUserByEmail (services.go 16-43).  The error branch is taken when the
transport failed or the item is empty; its log statement evaluates
`err.Error()`, which on the empty-item path calls a method on a nil error
interface and panics (`none`).  Otherwise unmarshal the item. -/
def findUserByEmail (resp : getUserResp) : Option (Option user × Option GoErr) :=
  match resp.err, resp.item with
  | some e, _ => some (none, some e)
  | none, dbUserItem.empty => none
  | none, dbUserItem.found u => some (some u, none)
  | none, dbUserItem.garbled => some (none, some GoErr.unmarshalFailure)

/-- Failure message of authenticate when the user lookup errs. -/
def msgNoRecord : List Char :=
  ['n', 'o', ' ', 'r', 'e', 'c', 'o', 'r', 'd']

/-- Failure message of authenticate when the passwords do not match. -/
def msgPwdMismatch : List Char :=
  ['p', 'w', 'd', ' ', 'm', 'i', 's', 'm', 'a', 't', 'c', 'h']

/-- Failure message of authenticate when signing errs (err.Error()). -/
def msgSigningErr : List Char :=
  ['s', 'i', 'g', 'n', ' ', 'e', 'r', 'r']

/-- authenticate (services.go 87-111): look the user up, check only whether
`err != nil`, verify the password, build the token.  A panic in
`findUserByEmail` propagates (`none`); if the lookup ever produced a nil user
with a nil error, `user.Pwd` would dereference a nil pointer, also a panic. -/
def authenticate (resp : getUserResp) (pwd jwtSecret : List Char)
    (tokenExpiryMin nowNano : Int) : Option auth :=
  match findUserByEmail resp with
  | none => none
  | some (uOpt, errOpt) =>
    match errOpt with
    | some _ =>
        some { Success := false, Message := msgNoRecord, Token := [],
               ExpiresAt := 0, User := none }
    | none =>
      match uOpt with
      | none => none
      | some u =>
        if verifyPwd u.Pwd pwd = false then
          some { Success := false, Message := msgPwdMismatch, Token := [],
                 ExpiresAt := 0, User := none }
        else
          match buildToken u.Email jwtSecret tokenExpiryMin nowNano with
          | Except.error _ =>
              some { Success := false, Message := msgSigningErr, Token := [],
                     ExpiresAt := 0, User := none }
          | Except.ok p =>
              some { Success := true, Message := [], Token := p.1,
                     ExpiresAt := p.2, User := some u }

/-- Session record (schema file: id, email, name, description, start/end
dates, status, metadata; pointer-valued fields are `Option`s). -/
structure session where
  ID : Option (List Char)
  Email : List Char
  Name : List Char
  Description : Option (List Char)
  StartDate : Int
  EndDate : Option Int
  Status : Option (List Char)
  Meta : Option baseMeta
deriving DecidableEq

/-- Two fixed-width hexadecimal digit characters of one byte. -/
def byteHex (b : Nat) : List Char := [hexChar (b / 16), hexChar b]

/-- uuid.UUID.String(): canonical hyphenated rendering of the sixteen bytes
(8-4-4-4-12 hex characters). -/
def uuidString (bs : List Nat) : List Char :=
  let b := (bs ++ List.replicate 16 0).take 16
  (b.take 4).flatMap byteHex ++
    '-' :: (((b.drop 4).take 2).flatMap byteHex ++
      '-' :: (((b.drop 6).take 2).flatMap byteHex ++
        '-' :: (((b.drop 8).take 2).flatMap byteHex ++
          '-' :: (b.drop 10).flatMap byteHex)))

/-- uuid.NewV4(): on entropy success, sixteen random bytes with the version
nibble of byte 6 set to 4 and the variant bits of byte 8 set to 10; on
entropy failure, the Nil UUID together with the error.  The caller in
saveSession discards the error component. -/
def uuidNewV4 (entropy : Option (List Nat)) : List Nat × Option GoErr :=
  match entropy with
  | some bs =>
    let b := (bs ++ List.replicate 16 0).take 16
    (((b.set 6 (b.getD 6 0 % 16 + 64)).set 8 (b.getD 8 0 % 64 + 128)), none)
  | none => (List.replicate 16 0, some GoErr.entropyFailure)

/-- saveSession (services.go 116-148): if the incoming session has no id,
draw a uuid (discarding the NewV4 error), set it and a fresh metadata block;
otherwise write through the existing metadata pointer, which panics (`none`)
when that pointer is nil.  Then marshal and put the record; `marshalErr` and
`putErr` are the results of those two calls. -/
def saveSession (sess : session) (nowNano : Int) (entropy : Option (List Nat))
    (marshalErr putErr : Option GoErr) : Option (Except GoErr session) :=
  let persist : session → Option (Except GoErr session) := fun s =>
    match marshalErr with
    | some e => some (Except.error e)
    | none =>
      match putErr with
      | some e => some (Except.error e)
      | none => some (Except.ok s)
  match sess.ID with
  | none =>
    let idVal := uuidString (uuidNewV4 entropy).1
    persist { sess with ID := some idVal,
                        Meta := some { MetaCreatedAt := some nowNano,
                                       MetaUpdatedAt := some nowNano,
                                       MetaIsActive := some true } }
  | some _ =>
    match sess.Meta with
    | none => none
    | some m =>
      persist { sess with Meta := some { m with MetaUpdatedAt := some nowNano,
                                                MetaIsActive := some true } }

/-- One element of `output.Items` of the sessions query: a record the
attribute unmarshal accepts, or one it rejects (rejected items are silently
skipped by findSessions). -/
inductive dbSessItem
  | record (s : session)
  | garbled
deriving DecidableEq

/-- Result of `QueryRequest(...).Send()` on the sessions table. -/
structure queryResp where
  err : Option GoErr
  count : Nat
  items : List dbSessItem
deriving DecidableEq

/-- findSessions (services.go 173-201): on transport failure return the
error; on a zero count return the nil slice with a nil error; otherwise
allocate `make([]*session, count)` (count nil pointers) and append each item
that unmarshals.  Elements of the returned Go slice are pointers, so the
model's elements are `Option session` and the preallocated ones are `none`. -/
def findSessions (resp : queryResp) : Except GoErr (List (Option session)) :=
  match resp.err with
  | some e => Except.error e
  | none =>
    if resp.count = 0 then Except.ok []
    else
      Except.ok (resp.items.foldl
        (fun acc it =>
          match it with
          | dbSessItem.record s => acc ++ [some s]
          | dbSessItem.garbled => acc)
        (List.replicate resp.count none))

/-- C1: for every identity claim c (an email) and secret s, validating the
authorization header formed by prefixing the scheme constant to the token
issued for c with s returns the identity claim c. -/
theorem c1_validate_after_issue (email jwtSecret : List Char)
    (tokenExpiryMin nowNano : Int) :
    validateToken
      (some (bearerTokenKey ++ issuedToken email jwtSecret tokenExpiryMin nowNano))
      jwtSecret = Except.ok email := by
  have h1 : issuedToken email jwtSecret tokenExpiryMin nowNano
      = signingString [(emailKey, email)] ++
          '.' :: hmacSign jwtSecret (signingString [(emailKey, email)]) := rfl
  rw [h1, validateToken_signedToken]
  simp [goMapGet]

/-- C2 (failing-input evaluation): when the backend reports success with zero
items (the user-not-found case), authenticate does not return a terminal auth
result; the lookup panics on `err.Error()` with a nil error and the panic
propagates, aborting the request. -/
theorem c2_user_not_found_aborts (pwd jwtSecret : List Char)
    (tokenExpiryMin nowNano : Int) :
    authenticate { err := none, item := dbUserItem.empty } pwd jwtSecret
      tokenExpiryMin nowNano = none := rfl

/-- C3 (failing-input evaluation): when the backend lookup succeeds with zero
items, findUserByEmail does not return a NotFoundError or any error value at
all; it panics calling `err.Error()` on the nil error in its log statement. -/
theorem c3_zero_items_lookup_panics :
    findUserByEmail { err := none, item := dbUserItem.empty } = none := rfl

/-- The identity-free claims map of the C4 failing input. -/
def c4claims : Claims := [(['i', 'd'], ['x'])]

/-- The secret of the C4 failing input. -/
def c4secret : List Char := ['s', 'e', 'c']

/-- C4 (failing-input evaluation): a correctly signed token whose decoded
string claims lack the `email` key is accepted by validateToken, which
returns the empty-string identity with a nil error instead of a validation
error. -/
theorem c4_missing_email_claim_accepted :
    validateToken
      (some (bearerTokenKey ++
        (signingString c4claims ++ '.' :: hmacSign c4secret (signingString c4claims))))
      c4secret = Except.ok []
    ∧ List.lookup emailKey c4claims = none := by
  constructor
  · rw [validateToken_signedToken]
    rfl
  · rfl

/-- C5: upsert of a session with an identifier and a metadata block keeps the
identifier, the created-at stamp, the owner email and every other field, and
refreshes exactly updated-at (to now) and is-active (to true). -/
theorem c5_upsert_existing_preserves_frame (i email name : List Char)
    (desc : Option (List Char)) (sd : Int) (ed : Option Int)
    (st : Option (List Char)) (m : baseMeta) (nowNano : Int)
    (entropy : Option (List Nat)) :
    saveSession ⟨some i, email, name, desc, sd, ed, st, some m⟩ nowNano entropy
        none none
      = some (Except.ok ⟨some i, email, name, desc, sd, ed, st,
          some ⟨m.MetaCreatedAt, some nowNano, some true⟩⟩) := rfl

/-- A fresh session (no identifier, no metadata) used as concrete input. -/
def sessionNew : session :=
  ⟨none, ['a'], ['n'], none, 0, none, none, none⟩

/-- The rendered Nil UUID, which NewV4 yields when entropy fails (the error
being discarded by saveSession). -/
def nilUuidStr : List Char := uuidString (List.replicate 16 0)

/-- C6 (counterexample): two upserts of identifier-free sessions can return
the same identifier: when the uuid generator errs (its error is discarded),
both calls store the Nil-UUID string, so the identifier of the second call
was previously used, refuting that the identifier is always
previously-unused. -/
theorem c6_counterexample_repeated_identifier :
    saveSession sessionNew 0 none none none
      = some (Except.ok ⟨some nilUuidStr, ['a'], ['n'], none, 0, none, none,
          some ⟨some 0, some 0, some true⟩⟩)
    ∧ saveSession sessionNew 5 none none none
      = some (Except.ok ⟨some nilUuidStr, ['a'], ['n'], none, 0, none, none,
          some ⟨some 5, some 5, some true⟩⟩) := ⟨rfl, rfl⟩

/-- C6 (amended): upsert of an identifier-free session sets the identifier to
the string of the uuid drawn from the generator, which is never empty, stamps
created-at = updated-at = now and is-active = true, and returns the session
as stored; freshness of the identifier is only as good as the generator,
whose error is discarded. -/
theorem c6_amended_new_session_sets_id_and_meta (email name : List Char)
    (desc : Option (List Char)) (sd : Int) (ed : Option Int)
    (st : Option (List Char)) (meta0 : Option baseMeta) (nowNano : Int)
    (entropy : Option (List Nat)) :
    saveSession ⟨none, email, name, desc, sd, ed, st, meta0⟩ nowNano entropy
        none none
      = some (Except.ok ⟨some (uuidString (uuidNewV4 entropy).1), email, name,
          desc, sd, ed, st, some ⟨some nowNano, some nowNano, some true⟩⟩)
    ∧ uuidString (uuidNewV4 entropy).1 ≠ [] := by
  constructor
  · rfl
  · simp [uuidString]

/-- A stored session record used as concrete backend output. -/
def sessionStored : session :=
  ⟨some ['i'], ['a'], ['n'], none, 0, none, none, some ⟨some 0, some 0, some true⟩⟩

/-- C7 (failing-input evaluation): with a successful query reporting one item,
listByOwner returns a two-element sequence: the preallocated nil pointer of
`make([]*session, count)` followed by the appended record, not exactly the
matching records. -/
theorem c7_list_prepends_nil_entries :
    findSessions ⟨none, 1, [dbSessItem.record sessionStored]⟩
      = Except.ok [none, some sessionStored] := rfl

/-- C8: a successful query with zero matching sessions yields the empty
sequence with a nil error, not a NotFoundError or any other error. -/
theorem c8_zero_count_returns_empty_ok (items : List dbSessItem) :
    findSessions ⟨none, 0, items⟩ = Except.ok [] := rfl

/-- C9 (counterexample): issuing with the empty secret succeeds, returning a
signed token and expiry rather than failing with a signing error. -/
theorem c9_counterexample_empty_secret_signs :
    buildToken ['a'] [] 60 0
      = Except.ok (signingString [(emailKey, ['a'])] ++
          '.' :: hmacSign [] (signingString [(emailKey, ['a'])]),
          3600000000000) := rfl

/-- C9 (amended): buildToken never fails: HS256 signing with a byte-slice
key, empty or not, always succeeds, and the token and expiry are returned for
every input. -/
theorem c9_amended_issue_never_fails (email jwtSecret : List Char)
    (tokenExpiryMin nowNano : Int) :
    buildToken email jwtSecret tokenExpiryMin nowNano
      = Except.ok (signingString [(emailKey, email)] ++
          '.' :: hmacSign jwtSecret (signingString [(emailKey, email)]),
          nowNano + tokenExpiryMin * 60 * 1000000000) := rfl

/-- C10: upsert of a session that has an identifier but no metadata block
(the exact shape the GraphQL session input decodes to, since the input type
has no meta field) dereferences the nil metadata pointer and panics instead
of returning a typed result. -/
theorem c10_existing_session_without_meta_panics (i email name : List Char)
    (desc : Option (List Char)) (sd : Int) (ed : Option Int)
    (st : Option (List Char)) (nowNano : Int) (entropy : Option (List Nat))
    (marshalErr putErr : Option GoErr) :
    saveSession ⟨some i, email, name, desc, sd, ed, st, none⟩ nowNano entropy
      marshalErr putErr = none := rfl
